import Mathlib

/-!
Verification of the multipart/form-data decoder of `src/server/routes.ts`
(`uploadMiddleware`, lines 81-153).

JS strings are modelled as `List Char` (one char per byte of the "binary"
string the middleware accumulates).  Each string primitive the source uses
(`split`, `includes`, `match` with its two concrete regexes, `lastIndexOf`,
`substring`, `trim`, `Array.join`) is embedded as an executable function on
`List Char` with JS semantics, and the middleware body is transcribed on top
of them.  The `fields` / `files` objects are association lists with
JS-object assignment semantics (in-place overwrite, insertion order kept);
`fs.writeFileSync` calls are recorded as a trace of (path, bytes) writes and
may be made to fail through an injected `writeOk` oracle, which models the
only exception source inside the loop.  `crypto.randomBytes(16).toString`
is modelled by an injected generator `gen : Nat → List Char` indexed by the
number of files processed so far.
-/

set_option maxHeartbeats 1000000

abbrev Chars := List Char

def strL (s : String) : Chars := s.data

/-- Byte view of a "binary" JS string: `Buffer.from(s, 'binary')` keeps the
low byte of every UTF-16 code unit. -/
def toBytes (s : Chars) : List Nat := s.map (fun c => c.toNat % 256)

/-- Boolean "is a prefix of" on char lists (JS `startsWith` at a position). -/
def prefB : Chars → Chars → Bool
  | [], _ => true
  | _ :: _, [] => false
  | p :: ps, c :: cs => p = c && prefB ps cs

/-- JS `s.includes(pat)`. -/
def hasSubB (pat : Chars) : Chars → Bool
  | [] => pat.isEmpty
  | c :: cs => prefB pat (c :: cs) || hasSubB pat cs

/-- Cons a char onto the first segment of a split result. -/
def consHead (c : Char) : List Chars → List Chars
  | [] => [[c]]
  | t :: ts => (c :: t) :: ts

/-- Fuel-driven worker for JS `s.split(del)` with non-empty delimiter
`d :: ds`: scan left to right, cutting at each non-overlapping occurrence.
The fuel (an upper bound on the length of the remaining input) only makes
the recursion structural; `splitFuel_congr` shows the result does not
depend on it. -/
def splitFuel (d : Char) (ds : Chars) : Nat → Chars → List Chars
  | _, [] => [[]]
  | 0, c :: cs => [c :: cs]
  | fuel + 1, c :: cs =>
    if prefB (d :: ds) (c :: cs) then
      [] :: splitFuel d ds fuel (cs.drop ds.length)
    else
      consHead c (splitFuel d ds fuel cs)

def splitGo (d : Char) (ds : Chars) (s : Chars) : List Chars :=
  splitFuel d ds s.length s

/-- JS `s.split(del)`.  Every delimiter built by the middleware
(`"--" + boundary`, `"\r\n\r\n"`) is non-empty, so the empty-delimiter
behaviour of JS (split into single chars) never arises. -/
def jsSplit (del : Chars) (s : Chars) : List Chars :=
  match del with
  | [] => [s]
  | d :: ds => splitGo d ds s

/-- JS `Array.prototype.join(sep)`. -/
def joinWith (sep : Chars) : List Chars → Chars
  | [] => []
  | [x] => x
  | x :: y :: ys => x ++ sep ++ joinWith sep (y :: ys)

/-- Start index of the last occurrence of `pat` (JS `s.lastIndexOf(pat)`,
`none` standing for `-1`; only used with non-empty patterns). -/
def lastIndexAux (pat : Chars) : Chars → Option Nat
  | [] => none
  | c :: cs =>
    match lastIndexAux pat cs with
    | some i => some (i + 1)
    | none => if prefB pat (c :: cs) then some 0 else none

/-- Lines 121/140 of the source:
`s.substring(0, s.lastIndexOf('\r\n'))` (JS `substring` clamps the negative
index produced by a missing occurrence to `0`). -/
def stripTrailing (s : Chars) : Chars :=
  match lastIndexAux (strL "\r\n") s with
  | some i => s.take i
  | none => []

def isWsChar (c : Char) : Bool :=
  c = ' ' || c = '\t' || c = '\n' || c = '\r' || c = '\x0B' || c = '\x0C'

/-- JS `s.trim()`. -/
def jsTrim (s : Chars) : Chars :=
  ((s.dropWhile isWsChar).reverse.dropWhile isWsChar).reverse

/-- After a literal has matched, `([^"]+)"` : a non-empty greedy run of
non-quote chars followed by a closing quote. -/
def captureQuoted (s : Chars) : Option Chars :=
  let run := s.takeWhile (fun c => c ≠ '"')
  if run.isEmpty then none
  else
    match s.drop run.length with
    | '"' :: _ => some run
    | _ => none

/-- Leftmost-match scan of a regex of shape `lit....`: at each position try
the literal and, where it matches, the continuation `handle`; on failure
resume at the next position (JS `String.match` semantics). -/
def scanFor (lit : Chars) (handle : Chars → Option Chars) : Chars → Option Chars
  | [] => none
  | c :: cs =>
    match (if prefB lit (c :: cs) then handle ((c :: cs).drop lit.length) else none) with
    | some r => some r
    | none => scanFor lit handle cs

/-- `headerStr.match(/name="([^"]+)"/)` and `/filename="([^"]+)"/`:
the opening quote is part of `lit`. -/
def matchQuoted (lit : Chars) (s : Chars) : Option Chars :=
  scanFor lit captureQuoted s

/-- The alternation of `/boundary=(?:"([^"]+)"|([^;]+))/` after the literal,
with `boundaryMatch[1] || boundaryMatch[2]` selecting the group that matched. -/
def tryBoundaryAlts (s : Chars) : Option Chars :=
  let quoted :=
    match s with
    | c :: rest => if c = '"' then captureQuoted rest else none
    | [] => none
  match quoted with
  | some r => some r
  | none =>
    let run := s.takeWhile (fun c => c ≠ ';')
    if run.isEmpty then none else some run

/-- Line 94: extract the boundary token from the Content-Type header. -/
def extractBoundary (contentType : Chars) : Option Chars :=
  scanFor (strL "boundary=") tryBoundaryAlts contentType

/-- `path.extname`: the last `.`-suffix of the (slash-free) filename, empty
for no dot or a leading dot. -/
def extname (s : Chars) : Chars :=
  match lastIndexAux (strL ".") s with
  | none => []
  | some 0 => []
  | some i => s.drop i

/-- JS object assignment `m[k] = v`: overwrite in place, else append. -/
def upsert {α : Type} (k : Chars) (v : α) : List (Chars × α) → List (Chars × α)
  | [] => [(k, v)]
  | (k', v') :: m => if k' = k then (k, v) :: m else (k', v') :: upsert k v m

/-- JS object read `m[k]`. -/
def lookupA {α : Type} (k : Chars) : List (Chars × α) → Option α
  | [] => none
  | (k', v) :: m => if k' = k then some v else lookupA k m

/-- The record stored in `files[originalFilename]` (lines 127-132); the
`path` field, `uploadsDir/filename`, is determined by `filename` and left
out. -/
structure FileRec where
  filename : Chars
  originalFilename : Chars
  size : Nat
deriving Repr, DecidableEq

/-- Decoder state: the two output objects, the trace of
`fs.writeFileSync(filepath, buffer)` calls, and how many files have been
written (= how many times `crypto.randomBytes` ran). -/
structure DecState where
  fields : List (Chars × Chars)
  files : List (Chars × FileRec)
  writes : List (Chars × List Nat)
  fileCount : Nat
deriving Repr, DecidableEq

def initState : DecState := ⟨[], [], [], 0⟩

inductive DecErr where
  | missingBoundary
  | processing
deriving Repr, DecidableEq

/-- Line 106: `if (!part.trim() || part.includes('--\r\n')) continue`. -/
def skipPart (part : Chars) : Bool :=
  (jsTrim part).isEmpty || hasSubB (strL "--\r\n") part

/-- Lines 108-109: split once on the first blank line; everything after it,
re-joined, is the body block. -/
def headerBody (part : Chars) : Chars × Chars :=
  match jsSplit (strL "\r\n\r\n") part with
  | [] => ([], [])
  | h :: rest => (h, joinWith (strL "\r\n\r\n") rest)

/-- Loop body, lines 105-143.  `gen k` is the hex name produced by the
`(k+1)`-th `crypto.randomBytes(16).toString('hex')` call; `writeOk` tells
whether `fs.writeFileSync` succeeds (an exception aborts the whole decode). -/
def processPart (gen : Nat → Chars) (writeOk : Chars → List Nat → Bool)
    (st : DecState) (part : Chars) : Except Unit DecState :=
  if skipPart part then .ok st
  else
    let hb := headerBody part
    let headerStr := hb.1
    let bodyContent := hb.2
    if hasSubB (strL "filename=") headerStr then
      match matchQuoted (strL "filename=\"") headerStr with
      | some originalFilename =>
        let extension := extname originalFilename
        let filename := gen st.fileCount ++ extension
        let fileContent := stripTrailing bodyContent
        let buffer := toBytes fileContent
        if writeOk filename buffer then
          .ok { st with
                files := upsert originalFilename
                  ⟨filename, originalFilename, buffer.length⟩ st.files,
                writes := st.writes ++ [(filename, buffer)],
                fileCount := st.fileCount + 1 }
        else .error ()
      | none => .ok st
    else
      match matchQuoted (strL "name=\"") headerStr with
      | some fieldName =>
        .ok { st with fields := upsert fieldName (stripTrailing bodyContent) st.fields }
      | none => .ok st

/-- The `for (const part of parts)` loop; an exception anywhere aborts. -/
def runParts (gen : Nat → Chars) (writeOk : Chars → List Nat → Bool) :
    DecState → List Chars → Except Unit DecState
  | st, [] => .ok st
  | st, p :: ps =>
    match processPart gen writeOk st p with
    | .ok st' => runParts gen writeOk st' ps
    | .error e => .error e

/-- The whole decode, lines 92-151: boundary extraction (throwing
`MissingBoundary` when the regex fails), split on `"--" + boundary`, the
part loop; any exception inside the loop surfaces as the processing error
and no partial `fields`/`files` escape. -/
def decode (gen : Nat → Chars) (writeOk : Chars → List Nat → Bool)
    (data contentType : Chars) : Except DecErr DecState :=
  match extractBoundary contentType with
  | none => .error .missingBoundary
  | some boundary =>
    match runParts gen writeOk initState (jsSplit (strL "--" ++ boundary) data) with
    | .ok st => .ok st
    | .error _ => .error .processing

/-! ### Canonical multipart bodies

Specification-side description of a well-formed body (spec §3/§4): a list of
field/file parts serialised in the standard wire format, which `decode` is
then run on. -/

inductive PartSpec where
  | fieldP (name : Chars) (value : Chars)
  | fileP (filename : Chars) (content : Chars)
deriving Repr, DecidableEq

/-- The Content-Disposition header line of a part (file parts use the fixed
form-field name `file`, as in the spec §8 scenario). -/
def headerOf : PartSpec → Chars
  | .fieldP n _ => strL "Content-Disposition: form-data; name=\"" ++ (n ++ strL "\"")
  | .fileP f _ => strL "Content-Disposition: form-data; name=\"file\"; filename=\"" ++ (f ++ strL "\"")

def bodyOf : PartSpec → Chars
  | .fieldP _ v => v
  | .fileP _ c => c

/-- What `data.split("--" + boundary)` yields for one serialised part: the
CRLF that followed the boundary line, the header block, the blank line, the
content and its trailing CRLF. -/
def segOf (p : PartSpec) : Chars :=
  (strL "\r\n" ++ headerOf p) ++ (strL "\r\n\r\n" ++ (bodyOf p ++ strL "\r\n"))

/-- Body text after the first `--boundary`: each part then its delimiter,
ending with the closing `--boundary--\r\n`. -/
def encTail (del : Chars) : List Chars → Chars
  | [] => strL "--\r\n"
  | s :: ss => s ++ (del ++ encTail del ss)

/-- The full serialised body for delimiter `del = "--" + boundary`. -/
def encodeBody (del : Chars) (segs : List Chars) : Chars :=
  del ++ encTail del segs

/-- A Content-Type header carrying the boundary. -/
def ctOf (B : Chars) : Chars := strL "multipart/form-data; boundary=" ++ B

/-- `true` iff no occurrence of `del` starts at any position strictly before
the end of `seg` inside `seg ++ del` — i.e. splitting on `del` first cuts
exactly at the end of `seg`. -/
def noEarlyHit (del : Chars) : Chars → Bool
  | [] => true
  | c :: cs => !prefB del ((c :: cs) ++ del) && noEarlyHit del cs

/-- `true` iff `del` occurs nowhere in `s`. -/
def noHit (del : Chars) : Chars → Bool
  | [] => true
  | c :: cs => !prefB del (c :: cs) && noHit del cs

/-- Boundary tokens admissible in a well-formed body: non-empty and free of
the three characters that would interfere with extraction (`;`, `"`) or
with recognising the closing segment (`\r`). -/
def wfBoundary (B : Chars) : Bool :=
  !B.isEmpty && B.all (fun c => c != ';' && c != '"' && c != '\r')

def byteChars (s : Chars) : Bool := s.all (fun c => decide (c.toNat < 256))

/-- Well-formedness of one part w.r.t. the delimiter `del = "--" + boundary`
(spec §3 "Part" / §4 step 2-4 side conditions): the serialised part must not
contain the delimiter or the close marker `--\r\n`, its blank-line separator
must be the first one, names must be non-empty quoted tokens, and content
bytes are bytes. -/
def wfPart (del : Chars) (p : PartSpec) : Bool :=
  noEarlyHit del (segOf p) && !hasSubB (strL "--\r\n") (segOf p)
    && noEarlyHit (strL "\r\n\r\n") (strL "\r\n" ++ headerOf p)
    && (match p with
        | .fieldP n v =>
          !n.isEmpty && n.all (fun c => c != '"')
            && !hasSubB (strL "filename=") (strL "\r\n" ++ headerOf p)
            && byteChars v
        | .fileP f c =>
          !f.isEmpty && f.all (fun c => c != '"') && byteChars c)

/-- Expected effect of one part on the state (spec §4 step 4). -/
def applyPart (gen : Nat → Chars) (st : DecState) : PartSpec → DecState
  | .fieldP n v => { st with fields := upsert n v st.fields }
  | .fileP f c =>
    let filename := gen st.fileCount ++ extname f
    let buffer := toBytes c
    { st with
      files := upsert f ⟨filename, f, buffer.length⟩ st.files,
      writes := st.writes ++ [(filename, buffer)],
      fileCount := st.fileCount + 1 }

/-- Expected effect including the possible storage failure of a file part. -/
def applyPartE (gen : Nat → Chars) (writeOk : Chars → List Nat → Bool)
    (st : DecState) : PartSpec → Except Unit DecState
  | .fieldP n v => .ok (applyPart gen st (.fieldP n v))
  | .fileP f c =>
    if writeOk (gen st.fileCount ++ extname f) (toBytes c) then
      .ok (applyPart gen st (.fileP f c))
    else .error ()

def runSpecE (gen : Nat → Chars) (writeOk : Chars → List Nat → Bool) :
    DecState → List PartSpec → Except Unit DecState
  | st, [] => .ok st
  | st, p :: ps =>
    match applyPartE gen writeOk st p with
    | .ok st' => runSpecE gen writeOk st' ps
    | .error e => .error e

/-- The field entries a part list contributes, in order. -/
def fieldEntries : List PartSpec → List (Chars × Chars)
  | [] => []
  | .fieldP n v :: ps => (n, v) :: fieldEntries ps
  | .fileP _ _ :: ps => fieldEntries ps

/-- The file entries, `k` being the number of files already written. -/
def fileEntries (gen : Nat → Chars) : Nat → List PartSpec → List (Chars × FileRec)
  | _, [] => []
  | k, .fieldP _ _ :: ps => fileEntries gen k ps
  | k, .fileP f c :: ps =>
    (f, ⟨gen k ++ extname f, f, (toBytes c).length⟩) :: fileEntries gen (k + 1) ps

/-- The storage writes, in order. -/
def writeEntries (gen : Nat → Chars) : Nat → List PartSpec → List (Chars × List Nat)
  | _, [] => []
  | k, .fieldP _ _ :: ps => writeEntries gen k ps
  | k, .fileP f c :: ps => (gen k ++ extname f, toBytes c) :: writeEntries gen (k + 1) ps

def fieldNames : List PartSpec → List Chars
  | [] => []
  | .fieldP n _ :: ps => n :: fieldNames ps
  | .fileP _ _ :: ps => fieldNames ps

def fileNames : List PartSpec → List Chars
  | [] => []
  | .fieldP _ _ :: ps => fileNames ps
  | .fileP f _ :: ps => f :: fileNames ps

def isFieldB : PartSpec → Bool
  | .fieldP _ _ => true
  | .fileP _ _ => false

def isFileB : PartSpec → Bool
  | .fieldP _ _ => false
  | .fileP _ _ => true

/-- Last-write-wins reference semantics for a field name (spec §3 invariant). -/
def lastFieldStep (n : Chars) (acc : Option Chars) : PartSpec → Option Chars
  | .fieldP m v => if m = n then some v else acc
  | .fileP _ _ => acc

/-- Last-write-wins reference semantics for a file key, threading the file
counter so storage names line up. -/
def lastFileStep (gen : Nat → Chars) (f : Chars) (acc : Nat × Option FileRec) :
    PartSpec → Nat × Option FileRec
  | .fieldP _ _ => acc
  | .fileP f' c =>
    (acc.1 + 1,
     if f' = f then some ⟨gen acc.1 ++ extname f', f', (toBytes c).length⟩ else acc.2)

/-! ### Basic lemmas about the string primitives -/

theorem drop_len_append {α : Type} (a b : List α) : (a ++ b).drop a.length = b := by
  induction a with
  | nil => rfl
  | cons c a ih => simp [ih]

theorem take_len_append {α : Type} (a b : List α) : (a ++ b).take a.length = a := by
  induction a with
  | nil => rfl
  | cons c a ih => simp [ih]

theorem prefB_refl_append (p t : Chars) : prefB p (p ++ t) = true := by
  induction p with
  | nil => rfl
  | cons c p ih => simpa [prefB] using ih

theorem prefB_append_mono {p s : Chars} (t : Chars) (h : prefB p s = true) :
    prefB p (s ++ t) = true := by
  induction p generalizing s with
  | nil => rfl
  | cons c p ih =>
    match s with
    | [] => exact absurd h (by simp [prefB])
    | x :: s =>
      simp only [prefB, Bool.and_eq_true, decide_eq_true_eq] at h
      simpa [prefB, h.1] using ih h.2

theorem prefB_window {p a : Chars} (b : Chars) (h : p.length ≤ a.length) :
    prefB p (a ++ b) = prefB p a := by
  induction p generalizing a with
  | nil => rfl
  | cons c p ih =>
    match a with
    | [] => simp at h
    | x :: a =>
      simp only [List.length_cons, Nat.succ_le_succ_iff] at h
      simp [prefB, ih h]

theorem prefB_eq_append {p s : Chars} (h : prefB p s = true) :
    s = p ++ s.drop p.length := by
  induction p generalizing s with
  | nil => rfl
  | cons c p ih =>
    match s with
    | [] => exact absurd h (by simp [prefB])
    | x :: s =>
      simp only [prefB, Bool.and_eq_true, decide_eq_true_eq] at h
      simpa [h.1.symm] using ih h.2

theorem hasSubB_append_left {pat a : Chars} (b : Chars) (h : hasSubB pat a = true) :
    hasSubB pat (a ++ b) = true := by
  induction a with
  | nil =>
    simp only [hasSubB, List.isEmpty_iff] at h
    subst h
    match b with
    | [] => rfl
    | c :: cs => simp [hasSubB, prefB]
  | cons c a ih =>
    simp only [hasSubB, Bool.or_eq_true] at h ⊢
    rcases h with h | h
    · exact Or.inl (prefB_append_mono b h)
    · exact Or.inr (ih h)

theorem consHead_ne_nil (c : Char) (l : List Chars) : consHead c l ≠ [] := by
  cases l <;> simp [consHead]

theorem splitFuel_congr (d : Char) (ds : Chars) :
    ∀ (s : Chars) (f1 f2 : Nat), s.length ≤ f1 → s.length ≤ f2 →
      splitFuel d ds f1 s = splitFuel d ds f2 s
  | [], f1, f2, _, _ => by cases f1 <;> cases f2 <;> rfl
  | c :: cs, f1, f2, h1, h2 => by
    cases f1 with
    | zero => simp at h1
    | succ g1 =>
      cases f2 with
      | zero => simp at h2
      | succ g2 =>
        simp only [List.length_cons, Nat.succ_le_succ_iff] at h1 h2
        show (if prefB (d :: ds) (c :: cs) then
                [] :: splitFuel d ds g1 (cs.drop ds.length)
              else consHead c (splitFuel d ds g1 cs))
            = (if prefB (d :: ds) (c :: cs) then
                [] :: splitFuel d ds g2 (cs.drop ds.length)
              else consHead c (splitFuel d ds g2 cs))
        by_cases hp : prefB (d :: ds) (c :: cs) = true
        · simp only [hp, if_true]
          have hr := splitFuel_congr d ds (cs.drop ds.length) g1 g2
            (by simp only [List.length_drop]; omega)
            (by simp only [List.length_drop]; omega)
          rw [hr]
        · simp only [hp, Bool.false_eq_true, if_false]
          rw [splitFuel_congr d ds cs g1 g2 h1 h2]
termination_by s => s.length
decreasing_by
  · simp only [List.length_drop, List.length_cons]
    omega
  · simp only [List.length_cons]
    omega

theorem splitGo_nil (d : Char) (ds : Chars) : splitGo d ds [] = [[]] := rfl

theorem splitGo_cons_pos (d : Char) (ds : Chars) (c : Char) (cs : Chars)
    (h : prefB (d :: ds) (c :: cs) = true) :
    splitGo d ds (c :: cs) = [] :: splitGo d ds (cs.drop ds.length) := by
  show (if prefB (d :: ds) (c :: cs) then
          [] :: splitFuel d ds cs.length (cs.drop ds.length)
        else consHead c (splitFuel d ds cs.length cs))
      = [] :: splitGo d ds (cs.drop ds.length)
  simp only [h, if_true]
  unfold splitGo
  rw [splitFuel_congr d ds (cs.drop ds.length) cs.length
    (cs.drop ds.length).length (by simp only [List.length_drop]; omega) (Nat.le_refl _)]

theorem splitGo_cons_neg (d : Char) (ds : Chars) (c : Char) (cs : Chars)
    (h : prefB (d :: ds) (c :: cs) = false) :
    splitGo d ds (c :: cs) = consHead c (splitGo d ds cs) := by
  show (if prefB (d :: ds) (c :: cs) then
          [] :: splitFuel d ds cs.length (cs.drop ds.length)
        else consHead c (splitFuel d ds cs.length cs))
      = consHead c (splitGo d ds cs)
  simp only [h, Bool.false_eq_true, if_false]
  rfl

theorem splitGo_ne_nil (d : Char) (ds : Chars) (s : Chars) : splitGo d ds s ≠ [] := by
  match s with
  | [] => simp [splitGo_nil]
  | c :: cs =>
    by_cases h : prefB (d :: ds) (c :: cs) = true
    · rw [splitGo_cons_pos d ds c cs h]
      simp
    · rw [splitGo_cons_neg d ds c cs (by simpa using h)]
      exact consHead_ne_nil c _

/-- Splitting `seg ++ del ++ rest` when the first occurrence of `del` is the
one spliced in: the head segment is exactly `seg`. -/
theorem splitGo_append (d : Char) (ds : Chars) (seg rest : Chars)
    (h : noEarlyHit (d :: ds) seg = true) :
    splitGo d ds (seg ++ (d :: ds) ++ rest) = seg :: splitGo d ds rest := by
  induction seg with
  | nil =>
    show splitGo d ds ((d :: ds) ++ rest) = [] :: splitGo d ds rest
    rw [show (d :: ds) ++ rest = d :: (ds ++ rest) from rfl,
        splitGo_cons_pos d ds d (ds ++ rest) (prefB_refl_append (d :: ds) rest),
        drop_len_append ds rest]
  | cons c seg ih =>
    simp only [noEarlyHit, Bool.and_eq_true, Bool.not_eq_true'] at h
    have h1 : prefB (d :: ds) (((c :: seg) ++ (d :: ds)) ++ rest) = false := by
      rw [prefB_window rest (by simp; omega)]
      exact h.1
    show splitGo d ds (c :: (seg ++ (d :: ds) ++ rest)) = (c :: seg) :: splitGo d ds rest
    rw [splitGo_cons_neg d ds c (seg ++ (d :: ds) ++ rest) h1, ih h.2]
    rfl

/-- Splitting a string the delimiter does not occur in. -/
theorem splitGo_noHit (d : Char) (ds : Chars) (s : Chars)
    (h : noHit (d :: ds) s = true) : splitGo d ds s = [s] := by
  induction s with
  | nil => exact splitGo_nil d ds
  | cons c cs ih =>
    simp only [noHit, Bool.and_eq_true, Bool.not_eq_true'] at h
    rw [splitGo_cons_neg d ds c cs h.1, ih h.2]
    rfl

/-- `join(del) ∘ split(del)` is the identity (JS round trip). -/
theorem joinWith_splitGo (d : Char) (ds : Chars) :
    ∀ s : Chars, joinWith (d :: ds) (splitGo d ds s) = s
  | [] => by simp [splitGo_nil, joinWith]
  | c :: cs => by
    by_cases h : prefB (d :: ds) (c :: cs) = true
    · rw [splitGo_cons_pos d ds c cs h]
      match hsp : splitGo d ds (cs.drop ds.length) with
      | [] => exact absurd hsp (splitGo_ne_nil d ds _)
      | t :: ts =>
        have hj : joinWith (d :: ds) (t :: ts) = cs.drop ds.length := by
          rw [← hsp]
          exact joinWith_splitGo d ds (cs.drop ds.length)
        calc joinWith (d :: ds) ([] :: t :: ts)
            = (d :: ds) ++ joinWith (d :: ds) (t :: ts) := rfl
          _ = (d :: ds) ++ (c :: cs).drop (d :: ds).length := by rw [hj]; rfl
          _ = c :: cs := (prefB_eq_append h).symm
    · rw [splitGo_cons_neg d ds c cs (by simpa using h)]
      match hsp : splitGo d ds cs with
      | [] => exact absurd hsp (splitGo_ne_nil d ds _)
      | t :: ts =>
        have hj : joinWith (d :: ds) (t :: ts) = cs := by
          rw [← hsp]
          exact joinWith_splitGo d ds cs
        match ts with
        | [] =>
          simp only [joinWith] at hj
          simp [consHead, joinWith, hj]
        | u :: us =>
          have : joinWith (d :: ds) ((c :: t) :: u :: us)
              = c :: joinWith (d :: ds) (t :: u :: us) := by
            simp [joinWith]
          simp only [consHead, this, hj]
termination_by s => s.length
decreasing_by
  · simp only [List.length_drop, List.length_cons]
    omega
  · simp only [List.length_cons]
    omega

theorem strL_crlf : strL "\r\n" = ['\r', '\n'] := rfl

theorem takeWhile_append_stop {p : Char → Bool} {a : Chars} (x : Char) (b : Chars)
    (ha : ∀ c ∈ a, p c = true) (hx : p x = false) :
    (a ++ x :: b).takeWhile p = a := by
  induction a with
  | nil => simp [List.takeWhile_cons, hx]
  | cons c a ih =>
    have hc : p c = true := ha c (by simp)
    simp only [List.cons_append, List.takeWhile_cons, hc, if_true]
    rw [ih (fun c hm => ha c (by simp [hm]))]

theorem takeWhile_all {p : Char → Bool} {a : Chars} (ha : ∀ c ∈ a, p c = true) :
    a.takeWhile p = a := by
  induction a with
  | nil => rfl
  | cons c a ih =>
    simp only [List.takeWhile_cons, ha c (by simp), if_true]
    rw [ih (fun c hm => ha c (by simp [hm]))]

theorem captureQuoted_eq {n : Chars} (post : Chars) (hne : n ≠ [])
    (hq : ∀ c ∈ n, c ≠ '"') :
    captureQuoted (n ++ '"' :: post) = some n := by
  have ht : (n ++ '"' :: post).takeWhile (fun c => c ≠ '"') = n :=
    takeWhile_append_stop '"' post (fun c hm => by simp [hq c hm]) (by simp)
  unfold captureQuoted
  simp only [ht, List.isEmpty_iff, hne, if_false, drop_len_append]

theorem scanFor_hit (l : Char) (ls : Chars) (handle : Chars → Option Chars)
    (pre rest : Chars) (r : Chars)
    (hpre : noEarlyHit (l :: ls) pre = true) (hh : handle rest = some r) :
    scanFor (l :: ls) handle (pre ++ (l :: ls) ++ rest) = some r := by
  induction pre with
  | nil =>
    have hp : prefB (l :: ls) (l :: (ls ++ rest)) = true := prefB_refl_append (l :: ls) rest
    show scanFor (l :: ls) handle (l :: (ls ++ rest)) = some r
    simp only [scanFor, hp, if_true, List.length_cons, List.drop_succ_cons,
      drop_len_append, hh]
  | cons c pre ih =>
    simp only [noEarlyHit, Bool.and_eq_true, Bool.not_eq_true'] at hpre
    have h1 : prefB (l :: ls) (c :: (pre ++ (l :: ls) ++ rest)) = false := by
      have he : c :: (pre ++ (l :: ls) ++ rest) = ((c :: pre) ++ (l :: ls)) ++ rest := by
        simp
      rw [he, prefB_window rest (by simp; omega)]
      exact hpre.1
    show scanFor (l :: ls) handle (c :: (pre ++ (l :: ls) ++ rest)) = some r
    simp only [scanFor, h1, Bool.false_eq_true, if_false]
    exact ih hpre.2

theorem scanFor_none (lit : Chars) (handle : Chars → Option Chars) (s : Chars)
    (h : hasSubB lit s = false) : scanFor lit handle s = none := by
  induction s with
  | nil => rfl
  | cons c cs ih =>
    simp only [hasSubB, Bool.or_eq_false_iff] at h
    simp only [scanFor, h.1, Bool.false_eq_true, if_false]
    exact ih h.2

theorem lastIndexAux_none {pat s : Chars} (h : hasSubB pat s = false) :
    lastIndexAux pat s = none := by
  induction s with
  | nil => rfl
  | cons c cs ih =>
    simp only [hasSubB, Bool.or_eq_false_iff] at h
    simp only [lastIndexAux, ih h.2, h.1, Bool.false_eq_true, if_false]

theorem lastIndexAux_cons (pat : Chars) (c : Char) (cs : Chars) :
    lastIndexAux pat (c :: cs)
      = match lastIndexAux pat cs with
        | some i => some (i + 1)
        | none => if prefB pat (c :: cs) then some 0 else none := rfl

theorem lastIndexAux_append_crlf {b : Chars} (v : Chars)
    (hb : hasSubB (strL "\r\n") b = false) :
    lastIndexAux (strL "\r\n") (v ++ strL "\r\n" ++ b) = some v.length := by
  simp only [strL_crlf] at hb ⊢
  induction v with
  | nil =>
    have hnb : lastIndexAux ['\r', '\n'] ('\n' :: b) = none := by
      apply lastIndexAux_none
      simp [hasSubB, prefB, hb]
    have hp : prefB ['\r', '\n'] ('\r' :: '\n' :: b) = true := by
      have := prefB_refl_append ['\r', '\n'] b
      simpa using this
    show lastIndexAux ['\r', '\n'] ('\r' :: '\n' :: b) = some 0
    rw [lastIndexAux_cons, hnb]
    simp [hp]
  | cons c v ih =>
    show lastIndexAux ['\r', '\n'] (c :: (v ++ ['\r', '\n'] ++ b)) = some (v.length + 1)
    rw [lastIndexAux_cons, ih]

theorem stripTrailing_append {b : Chars} (v : Chars)
    (hb : hasSubB (strL "\r\n") b = false) :
    stripTrailing (v ++ strL "\r\n" ++ b) = v := by
  unfold stripTrailing
  rw [lastIndexAux_append_crlf v hb]
  have h := take_len_append v (strL "\r\n" ++ b)
  simp [List.append_assoc] at h ⊢
  try exact h

theorem stripTrailing_of_no_crlf {s : Chars} (h : hasSubB (strL "\r\n") s = false) :
    stripTrailing s = [] := by
  unfold stripTrailing
  rw [lastIndexAux_none h]

theorem dropWhile_eq_nil_all {p : Char → Bool} {l : Chars} (h : l.dropWhile p = []) :
    ∀ c ∈ l, p c = true := by
  induction l with
  | nil => intro c hc; simp at hc
  | cons x l ih =>
    intro c hc
    by_cases hx : p x = true
    · simp only [List.dropWhile_cons, hx, if_true] at h
      rcases List.mem_cons.mp hc with rfl | hc
      · exact hx
      · exact ih h c hc
    · simp only [List.dropWhile_cons] at h
      rw [Bool.not_eq_true] at hx
      simp [hx] at h

theorem mem_dropWhile_of_not {p : Char → Bool} {c : Char} {l : Chars}
    (hc : c ∈ l) (hp : p c = false) : c ∈ l.dropWhile p := by
  induction l with
  | nil => simp at hc
  | cons x l ih =>
    by_cases hx : p x = true
    · simp only [List.dropWhile_cons, hx, if_true]
      rcases List.mem_cons.mp hc with rfl | hc
      · rw [hx] at hp; exact Bool.noConfusion hp
      · exact ih hc
    · rw [Bool.not_eq_true] at hx
      simp only [List.dropWhile_cons, hx]
      simpa using hc

theorem jsTrim_ne_nil {c : Char} {s : Chars} (hc : c ∈ s) (hw : isWsChar c = false) :
    jsTrim s ≠ [] := by
  intro h
  unfold jsTrim at h
  have h1 : (s.dropWhile isWsChar).reverse.dropWhile isWsChar = [] := by
    have := congrArg List.reverse h
    simpa using this
  have h2 : c ∈ s.dropWhile isWsChar := mem_dropWhile_of_not hc hw
  have h3 : c ∈ (s.dropWhile isWsChar).reverse := List.mem_reverse.mpr h2
  have := dropWhile_eq_nil_all h1 c h3
  rw [hw] at this
  exact Bool.noConfusion this

theorem lookupA_upsert {α : Type} (k n : Chars) (v : α) (m : List (Chars × α)) :
    lookupA n (upsert k v m) = if k = n then some v else lookupA n m := by
  induction m with
  | nil => simp [upsert, lookupA]
  | cons e m ih =>
    obtain ⟨k', v'⟩ := e
    by_cases h : k' = k
    · subst h
      by_cases hn : k' = n <;> simp [upsert, lookupA, hn]
    · simp only [upsert, h, if_false, lookupA]
      by_cases hn : k' = n
      · subst hn
        have : ¬(k = k') := fun hkk => h hkk.symm
        simp [lookupA, this]
      · simp [lookupA, hn, ih]

theorem upsert_fresh {α : Type} {k : Chars} {m : List (Chars × α)} (v : α)
    (h : k ∉ m.map Prod.fst) : upsert k v m = m ++ [(k, v)] := by
  induction m with
  | nil => rfl
  | cons e m ih =>
    obtain ⟨k', v'⟩ := e
    simp only [List.map_cons, List.mem_cons] at h
    push_neg at h
    have : k' ≠ k := fun he => h.1 he.symm
    simp only [upsert, this, if_false, List.cons_append]
    rw [ih h.2]

theorem lookupA_entries {α : Type} {k : Chars} {v : α} {m : List (Chars × α)}
    (hnd : (m.map Prod.fst).Nodup) (hm : (k, v) ∈ m) : lookupA k m = some v := by
  induction m with
  | nil => simp at hm
  | cons e m ih =>
    obtain ⟨k', v'⟩ := e
    simp only [List.map_cons, List.nodup_cons] at hnd
    rcases List.mem_cons.mp hm with he | hm'
    · injection he with h1 h2
      subst h1
      subst h2
      simp [lookupA]
    · by_cases hk : k' = k
      · subst hk
        exact absurd (List.mem_map_of_mem Prod.fst hm') hnd.1
      · simp only [lookupA, hk, if_false]
        exact ih hnd.2 hm'

/-! ### Decoding one canonical part -/

theorem mem_C_seg (p : PartSpec) : 'C' ∈ segOf p := by
  have hh : 'C' ∈ headerOf p := by
    cases p with
    | fieldP n v =>
      show 'C' ∈ strL "Content-Disposition: form-data; name=\"" ++ (n ++ strL "\"")
      exact List.mem_append.mpr (Or.inl (by decide))
    | fileP f c =>
      show 'C' ∈ strL "Content-Disposition: form-data; name=\"file\"; filename=\""
          ++ (f ++ strL "\"")
      exact List.mem_append.mpr (Or.inl (by decide))
  show 'C' ∈ (strL "\r\n" ++ headerOf p) ++ (strL "\r\n\r\n" ++ (bodyOf p ++ strL "\r\n"))
  exact List.mem_append.mpr (Or.inl (List.mem_append.mpr (Or.inr hh)))

theorem skipPart_seg {p : PartSpec}
    (h2 : hasSubB (strL "--\r\n") (segOf p) = false) :
    skipPart (segOf p) = false := by
  have hne := jsTrim_ne_nil (mem_C_seg p) (by decide)
  have hie : (jsTrim (segOf p)).isEmpty = false := by
    cases hjt : (jsTrim (segOf p)).isEmpty
    · rfl
    · exact absurd (List.isEmpty_iff.mp hjt) hne
  unfold skipPart
  rw [hie, h2]
  rfl

theorem headerBody_seg (p : PartSpec)
    (h : noEarlyHit (strL "\r\n\r\n") (strL "\r\n" ++ headerOf p) = true) :
    headerBody (segOf p) = (strL "\r\n" ++ headerOf p, bodyOf p ++ strL "\r\n") := by
  have hsep : strL "\r\n\r\n" = '\r' :: strL "\n\r\n" := rfl
  have hseg : segOf p
      = (strL "\r\n" ++ headerOf p) ++ ('\r' :: strL "\n\r\n")
          ++ (bodyOf p ++ strL "\r\n") := by
    unfold segOf
    rw [← hsep, ← List.append_assoc]
  have hsplit : splitGo '\r' (strL "\n\r\n") (segOf p)
      = (strL "\r\n" ++ headerOf p)
          :: splitGo '\r' (strL "\n\r\n") (bodyOf p ++ strL "\r\n") := by
    rw [hseg]
    exact splitGo_append '\r' (strL "\n\r\n") _ _ (hsep ▸ h)
  unfold headerBody
  rw [show jsSplit (strL "\r\n\r\n") (segOf p)
      = splitGo '\r' (strL "\n\r\n") (segOf p) from rfl, hsplit]
  show (_, joinWith (strL "\r\n\r\n") (splitGo '\r' (strL "\n\r\n") (bodyOf p ++ strL "\r\n"))) = _
  rw [hsep, joinWith_splitGo]

theorem matchName_fieldHeader (n v : Chars) (hne : n.isEmpty = false)
    (hq : n.all (fun c => c != '"') = true) :
    matchQuoted (strL "name=\"") (strL "\r\n" ++ headerOf (.fieldP n v)) = some n := by
  have hnn : n ≠ [] := by
    intro h
    subst h
    simp at hne
  have hqc : ∀ c ∈ n, c ≠ '"' := by
    intro c hc
    have := List.all_eq_true.mp hq c hc
    simpa using this
  have e1 : strL "\r\n" ++ strL "Content-Disposition: form-data; name=\""
      = strL "\r\nContent-Disposition: form-data; " ++ strL "name=\"" := by decide
  have e2 : strL "\"" = ['"'] := rfl
  have hdrEq : strL "\r\n" ++ headerOf (.fieldP n v)
      = strL "\r\nContent-Disposition: form-data; " ++ strL "name=\"" ++ (n ++ ['"']) := by
    show strL "\r\n" ++ (strL "Content-Disposition: form-data; name=\"" ++ (n ++ strL "\"")) = _
    rw [← List.append_assoc, e1, e2]
  rw [hdrEq]
  show scanFor (strL "name=\"") captureQuoted _ = some n
  have hlit : strL "name=\"" = 'n' :: strL "ame=\"" := rfl
  rw [hlit]
  exact scanFor_hit 'n' (strL "ame=\"") captureQuoted _ _ n (by decide)
    (captureQuoted_eq [] hnn hqc)

theorem hasFileEq_fileHeader (f c : Chars) :
    hasSubB (strL "filename=") (strL "\r\n" ++ headerOf (.fileP f c)) = true := by
  have e1 : strL "\r\n" ++ strL "Content-Disposition: form-data; name=\"file\"; filename=\""
      = strL "\r\nContent-Disposition: form-data; name=\"file\"; filename=\"" := by decide
  show hasSubB (strL "filename=")
      (strL "\r\n" ++ (strL "Content-Disposition: form-data; name=\"file\"; filename=\""
        ++ (f ++ strL "\""))) = true
  rw [← List.append_assoc, e1]
  exact hasSubB_append_left _ (by decide)

theorem matchFile_fileHeader (f c : Chars) (hne : f.isEmpty = false)
    (hq : f.all (fun c => c != '"') = true) :
    matchQuoted (strL "filename=\"") (strL "\r\n" ++ headerOf (.fileP f c)) = some f := by
  have hnn : f ≠ [] := by
    intro h
    subst h
    simp at hne
  have hqc : ∀ c ∈ f, c ≠ '"' := by
    intro c hc
    have := List.all_eq_true.mp hq c hc
    simpa using this
  have e1 : strL "\r\n" ++ strL "Content-Disposition: form-data; name=\"file\"; filename=\""
      = strL "\r\nContent-Disposition: form-data; name=\"file\"; " ++ strL "filename=\"" := by
    decide
  have e2 : strL "\"" = ['"'] := rfl
  have hdrEq : strL "\r\n" ++ headerOf (.fileP f c)
      = strL "\r\nContent-Disposition: form-data; name=\"file\"; " ++ strL "filename=\""
          ++ (f ++ ['"']) := by
    show strL "\r\n" ++ (strL "Content-Disposition: form-data; name=\"file\"; filename=\""
        ++ (f ++ strL "\"")) = _
    rw [← List.append_assoc, e1, e2]
  rw [hdrEq]
  show scanFor (strL "filename=\"") captureQuoted _ = some f
  have hlit : strL "filename=\"" = 'f' :: strL "ilename=\"" := rfl
  rw [hlit]
  exact scanFor_hit 'f' (strL "ilename=\"") captureQuoted _ _ f (by decide)
    (captureQuoted_eq [] hnn hqc)

theorem stripTrailing_body (v : Chars) : stripTrailing (v ++ strL "\r\n") = v := by
  have h0 := stripTrailing_append (b := []) v (by decide)
  rwa [List.append_nil] at h0

/-- Processing a serialised well-formed part does exactly what the abstract
step says. -/
theorem processPart_canonical (gen : Nat → Chars) (wo : Chars → List Nat → Bool)
    (del : Chars) (st : DecState) (p : PartSpec) (hwf : wfPart del p = true) :
    processPart gen wo st (segOf p) = applyPartE gen wo st p := by
  cases p with
  | fieldP n v =>
    simp only [wfPart, Bool.and_eq_true, Bool.not_eq_true'] at hwf
    obtain ⟨⟨⟨h1, h2⟩, h3⟩, ⟨⟨hne, hq⟩, hnf⟩, hbv⟩ := hwf
    have hskip := skipPart_seg (p := .fieldP n v) h2
    have hhb := headerBody_seg (.fieldP n v) h3
    have hname := matchName_fieldHeader n v hne hq
    simp only [processPart, hskip, Bool.false_eq_true, if_false, hhb, hnf, hname,
      bodyOf, stripTrailing_body, applyPartE, applyPart]
  | fileP f c =>
    simp only [wfPart, Bool.and_eq_true, Bool.not_eq_true'] at hwf
    obtain ⟨⟨⟨h1, h2⟩, h3⟩, ⟨hne, hq⟩, hbc⟩ := hwf
    have hskip := skipPart_seg (p := .fileP f c) h2
    have hhb := headerBody_seg (.fileP f c) h3
    have hfile := matchFile_fileHeader f c hne hq
    have hhas := hasFileEq_fileHeader f c
    simp only [processPart, hskip, Bool.false_eq_true, if_false, hhb, hhas, if_true,
      hfile, bodyOf, stripTrailing_body, applyPartE, applyPart]

/-! ### Boundary extraction and the whole-body split -/

theorem extractBoundary_ctOf {B : Chars} (hB : wfBoundary B = true) :
    extractBoundary (ctOf B) = some B := by
  simp only [wfBoundary, Bool.and_eq_true] at hB
  obtain ⟨hne, hall⟩ := hB
  have h3 : ∀ c ∈ B, (c ≠ ';' ∧ c ≠ '"') ∧ c ≠ '\r' := by
    intro c hc
    have := List.all_eq_true.mp hall c hc
    simpa using this
  have hnn : B ≠ [] := by
    intro h
    subst h
    simp at hne
  have hta : tryBoundaryAlts B = some B := by
    match B, hnn with
    | b :: bs, _ =>
      have hb : ¬(b = '"') := (h3 b (by simp)).1.2
      have ht : (b :: bs).takeWhile (fun c => c ≠ ';') = b :: bs :=
        takeWhile_all (fun c hc => by simp [(h3 c hc).1.1])
      unfold tryBoundaryAlts
      simp [hb, ht]
      exact ⟨(h3 b (by simp)).1.1, fun a ha => (h3 a (by simp [ha])).1.1⟩
  have hct : ctOf B = strL "multipart/form-data; " ++ strL "boundary=" ++ B := by
    unfold ctOf
    rw [show strL "multipart/form-data; boundary="
        = strL "multipart/form-data; " ++ strL "boundary=" from by decide]
  rw [hct]
  unfold extractBoundary
  have hlit : strL "boundary=" = 'b' :: strL "oundary=" := rfl
  rw [hlit]
  exact scanFor_hit 'b' (strL "oundary=") tryBoundaryAlts _ B B (by decide) hta

theorem noHit_closer {B : Chars} (hB : wfBoundary B = true) :
    noHit ('-' :: '-' :: B) (strL "--\r\n") = true := by
  simp only [wfBoundary, Bool.and_eq_true] at hB
  obtain ⟨hne, hall⟩ := hB
  have hnn : B ≠ [] := by
    intro h
    subst h
    simp at hne
  match B, hnn with
  | b :: bs, _ =>
    have hbr : ¬(b = '\r') := by
      have := List.all_eq_true.mp hall b (by simp)
      simp at this
      exact this.2
    show noHit ('-' :: '-' :: b :: bs) ['-', '-', '\r', '\n'] = true
    simp [noHit, prefB, hbr]

theorem splitGo_encTail {B : Chars} (hB : wfBoundary B = true) :
    ∀ segs : List Chars, (∀ s ∈ segs, noEarlyHit ('-' :: '-' :: B) s = true) →
      splitGo '-' ('-' :: B) (encTail ('-' :: '-' :: B) segs) = segs ++ [strL "--\r\n"]
  | [], _ => by
    show splitGo '-' ('-' :: B) (strL "--\r\n") = [strL "--\r\n"]
    exact splitGo_noHit _ _ _ (noHit_closer hB)
  | s :: ss, h => by
    show splitGo '-' ('-' :: B)
        (s ++ (('-' :: '-' :: B) ++ encTail ('-' :: '-' :: B) ss)) = _
    rw [← List.append_assoc,
        splitGo_append '-' ('-' :: B) s _ (h s (by simp)),
        splitGo_encTail hB ss (fun t ht => h t (by simp [ht]))]
    rfl

theorem jsSplit_encodeBody {B : Chars} (hB : wfBoundary B = true)
    (segs : List Chars) (h : ∀ s ∈ segs, noEarlyHit ('-' :: '-' :: B) s = true) :
    jsSplit (strL "--" ++ B) (encodeBody ('-' :: '-' :: B) segs)
      = [] :: (segs ++ [strL "--\r\n"]) := by
  show splitGo '-' ('-' :: B) (encodeBody ('-' :: '-' :: B) segs) = _
  unfold encodeBody
  have h0 := splitGo_append '-' ('-' :: B) [] (encTail ('-' :: '-' :: B) segs) rfl
  simp only [List.nil_append] at h0
  rw [h0, splitGo_encTail hB segs h]

theorem processPart_closer (gen : Nat → Chars) (wo : Chars → List Nat → Bool)
    (st : DecState) : processPart gen wo st (strL "--\r\n") = .ok st := by
  have h : skipPart (strL "--\r\n") = true := by decide
  simp [processPart, h]

theorem processPart_empty (gen : Nat → Chars) (wo : Chars → List Nat → Bool)
    (st : DecState) : processPart gen wo st [] = .ok st := by
  have h : skipPart [] = true := rfl
  simp [processPart, h]

theorem runParts_canonical (gen : Nat → Chars) (wo : Chars → List Nat → Bool)
    (del : Chars) :
    ∀ (parts : List PartSpec) (st : DecState),
      (∀ p ∈ parts, wfPart del p = true) →
      runParts gen wo st (parts.map segOf ++ [strL "--\r\n"])
        = runSpecE gen wo st parts
  | [], st, _ => by
    show runParts gen wo st [strL "--\r\n"] = .ok st
    simp [runParts, processPart_closer]
  | p :: ps, st, h => by
    have hp := processPart_canonical gen wo del st p (h p (by simp))
    show runParts gen wo st (segOf p :: (ps.map segOf ++ [strL "--\r\n"]))
        = runSpecE gen wo st (p :: ps)
    simp only [runParts, runSpecE, hp]
    cases hap : applyPartE gen wo st p with
    | ok st' => exact runParts_canonical gen wo del ps st' (fun q hq => h q (by simp [hq]))
    | error e => rfl

/-- Central lemma: decoding a serialised well-formed body is exactly the
abstract part-by-part run. -/
theorem decode_encodeBody (gen : Nat → Chars) (wo : Chars → List Nat → Bool)
    {B : Chars} (parts : List PartSpec) (hB : wfBoundary B = true)
    (hp : ∀ p ∈ parts, wfPart ('-' :: '-' :: B) p = true) :
    decode gen wo (encodeBody ('-' :: '-' :: B) (parts.map segOf)) (ctOf B)
      = match runSpecE gen wo initState parts with
        | .ok st => .ok st
        | .error _ => .error .processing := by
  unfold decode
  rw [extractBoundary_ctOf hB]
  have hsegs : ∀ s ∈ parts.map segOf, noEarlyHit ('-' :: '-' :: B) s = true := by
    intro s hs
    obtain ⟨p, hpmem, rfl⟩ := List.mem_map.mp hs
    have hw := hp p hpmem
    simp only [wfPart, Bool.and_eq_true] at hw
    exact hw.1.1.1
  show (match runParts gen wo initState
      (jsSplit (strL "--" ++ B) (encodeBody ('-' :: '-' :: B) (parts.map segOf))) with
    | .ok st => Except.ok st
    | .error _ => Except.error DecErr.processing) = _
  rw [jsSplit_encodeBody hB (parts.map segOf) hsegs]
  rw [show runParts gen wo initState ([] :: (parts.map segOf ++ [strL "--\r\n"]))
      = runParts gen wo initState (parts.map segOf ++ [strL "--\r\n"]) from by
    simp [runParts, processPart_empty]]
  rw [runParts_canonical gen wo ('-' :: '-' :: B) parts initState hp]

theorem runSpecE_true (gen : Nat → Chars) :
    ∀ (parts : List PartSpec) (st : DecState),
      runSpecE gen (fun _ _ => true) st parts = .ok (parts.foldl (applyPart gen) st)
  | [], _ => rfl
  | p :: ps, st => by
    cases p with
    | fieldP n v =>
      simp only [runSpecE, applyPartE, List.foldl_cons]
      exact runSpecE_true gen ps _
    | fileP f c =>
      simp only [runSpecE, applyPartE, if_true, List.foldl_cons]
      exact runSpecE_true gen ps _

theorem runSpecE_ok (gen : Nat → Chars) (wo : Chars → List Nat → Bool) :
    ∀ (parts : List PartSpec) (st st' : DecState),
      runSpecE gen wo st parts = .ok st' → st' = parts.foldl (applyPart gen) st
  | [], st, st', h => by
    simp only [runSpecE] at h
    simpa using (Except.ok.inj h).symm
  | p :: ps, st, st', h => by
    cases p with
    | fieldP n v =>
      simp only [runSpecE, applyPartE] at h
      rw [List.foldl_cons]
      exact runSpecE_ok gen wo ps _ st' h
    | fileP f c =>
      simp only [runSpecE, applyPartE] at h
      by_cases hw : wo (gen st.fileCount ++ extname f) (toBytes c) = true
      · simp only [hw, if_true] at h
        rw [List.foldl_cons]
        exact runSpecE_ok gen wo ps _ st' h
      · simp only [Bool.not_eq_true] at hw
        simp [hw] at h

theorem runSpecE_false_of_file (gen : Nat → Chars) :
    ∀ (parts : List PartSpec) (st : DecState),
      (∃ f c, PartSpec.fileP f c ∈ parts) →
      runSpecE gen (fun _ _ => false) st parts = .error ()
  | [], _, h => by
    obtain ⟨f, c, hm⟩ := h
    simp at hm
  | p :: ps, st, h => by
    cases p with
    | fieldP n v =>
      obtain ⟨f, c, hm⟩ := h
      have hm' : PartSpec.fileP f c ∈ ps := by
        rcases List.mem_cons.mp hm with he | hm'
        · exact absurd he (by simp)
        · exact hm'
      simp only [runSpecE, applyPartE]
      exact runSpecE_false_of_file gen ps _ ⟨f, c, hm'⟩
    | fileP f c =>
      simp [runSpecE, applyPartE]

/-! ### Bookkeeping over the abstract run -/

theorem foldl_applyPart_writes (gen : Nat → Chars) :
    ∀ (parts : List PartSpec) (st : DecState),
      (parts.foldl (applyPart gen) st).writes
        = st.writes ++ writeEntries gen st.fileCount parts
  | [], st => by simp [writeEntries]
  | .fieldP n v :: ps, st => by
    simp only [List.foldl_cons, applyPart, writeEntries]
    exact foldl_applyPart_writes gen ps _
  | .fileP f c :: ps, st => by
    simp only [List.foldl_cons, applyPart, writeEntries]
    rw [foldl_applyPart_writes gen ps _]
    simp [List.append_assoc]

theorem foldl_applyPart_fields (gen : Nat → Chars) :
    ∀ (parts : List PartSpec) (st : DecState),
      (st.fields.map Prod.fst ++ fieldNames parts).Nodup →
      (parts.foldl (applyPart gen) st).fields = st.fields ++ fieldEntries parts
  | [], st, _ => by simp [fieldEntries]
  | .fieldP n v :: ps, st, hnd => by
    have hsplit := List.nodup_append.mp hnd
    have hn : n ∉ st.fields.map Prod.fst := fun hmem =>
      hsplit.2.2 hmem (by simp [fieldNames])
    have hnd' : (((st.fields ++ [(n, v)]).map Prod.fst) ++ fieldNames ps).Nodup := by
      simp only [List.map_append, List.append_assoc, List.map_cons, List.map_nil]
      simpa [fieldNames] using hnd
    simp only [List.foldl_cons, applyPart]
    rw [upsert_fresh v hn, foldl_applyPart_fields gen ps _ hnd', fieldEntries]
    simp [List.append_assoc]
  | .fileP f c :: ps, st, hnd => by
    simp only [List.foldl_cons, applyPart]
    rw [foldl_applyPart_fields gen ps _ (by simpa [fieldNames] using hnd), fieldEntries]

theorem foldl_applyPart_files (gen : Nat → Chars) :
    ∀ (parts : List PartSpec) (st : DecState),
      (st.files.map Prod.fst ++ fileNames parts).Nodup →
      (parts.foldl (applyPart gen) st).files
        = st.files ++ fileEntries gen st.fileCount parts
  | [], st, _ => by simp [fileEntries]
  | .fieldP n v :: ps, st, hnd => by
    simp only [List.foldl_cons, applyPart]
    rw [foldl_applyPart_files gen ps _ (by simpa [fileNames] using hnd), fileEntries]
  | .fileP f c :: ps, st, hnd => by
    have hsplit := List.nodup_append.mp hnd
    have hf : f ∉ st.files.map Prod.fst := fun hmem =>
      hsplit.2.2 hmem (by simp [fileNames])
    have hnd' : (((st.files
        ++ [(f, (⟨gen st.fileCount ++ extname f, f, (toBytes c).length⟩ : FileRec))]).map
          Prod.fst) ++ fileNames ps).Nodup := by
      simp only [List.map_append, List.append_assoc, List.map_cons, List.map_nil]
      simpa [fileNames] using hnd
    simp only [List.foldl_cons, applyPart]
    rw [upsert_fresh _ hf, foldl_applyPart_files gen ps _ hnd', fileEntries]
    simp [List.append_assoc]

theorem length_fieldEntries : ∀ parts : List PartSpec,
    (fieldEntries parts).length = parts.countP isFieldB
  | [] => by simp [fieldEntries]
  | .fieldP n v :: ps => by
    simp [fieldEntries, List.countP_cons, isFieldB, length_fieldEntries ps]
  | .fileP f c :: ps => by
    simp [fieldEntries, List.countP_cons, isFieldB, length_fieldEntries ps]

theorem length_fileEntries (gen : Nat → Chars) : ∀ (parts : List PartSpec) (k : Nat),
    (fileEntries gen k parts).length = parts.countP isFileB
  | [], _ => by simp [fileEntries]
  | .fieldP n v :: ps, k => by
    simp [fileEntries, List.countP_cons, isFileB, length_fileEntries gen ps k]
  | .fileP f c :: ps, k => by
    simp [fileEntries, List.countP_cons, isFileB, length_fileEntries gen ps (k + 1)]

theorem map_fst_fieldEntries : ∀ parts : List PartSpec,
    (fieldEntries parts).map Prod.fst = fieldNames parts
  | [] => rfl
  | .fieldP n v :: ps => by simp [fieldEntries, fieldNames, map_fst_fieldEntries ps]
  | .fileP f c :: ps => by simp [fieldEntries, fieldNames, map_fst_fieldEntries ps]

theorem map_fst_fileEntries (gen : Nat → Chars) : ∀ (parts : List PartSpec) (k : Nat),
    (fileEntries gen k parts).map Prod.fst = fileNames parts
  | [], _ => rfl
  | .fieldP n v :: ps, k => by simp [fileEntries, fileNames, map_fst_fileEntries gen ps k]
  | .fileP f c :: ps, k => by
    simp [fileEntries, fileNames, map_fst_fileEntries gen ps (k + 1)]

theorem mem_fieldEntries : ∀ {parts : List PartSpec} {n v : Chars},
    PartSpec.fieldP n v ∈ parts → (n, v) ∈ fieldEntries parts := by
  intro parts
  induction parts with
  | nil => intro n v h; simp at h
  | cons p ps ih =>
    intro n v h
    cases p with
    | fieldP m w =>
      rcases List.mem_cons.mp h with he | hm
      · injection he with h1 h2
        subst h1
        subst h2
        simp [fieldEntries]
      · simp [fieldEntries, ih hm]
    | fileP f c =>
      rcases List.mem_cons.mp h with he | hm
      · exact absurd he (by simp)
      · simp [fieldEntries, ih hm]

theorem mem_fileEntries (gen : Nat → Chars) :
    ∀ (parts : List PartSpec) (k0 : Nat) (f c : Chars),
      PartSpec.fileP f c ∈ parts →
      ∃ k, (f, (⟨gen k ++ extname f, f, (toBytes c).length⟩ : FileRec))
            ∈ fileEntries gen k0 parts
        ∧ (gen k ++ extname f, toBytes c) ∈ writeEntries gen k0 parts
  | [], k0, f, c, h => by simp at h
  | .fieldP n v :: ps, k0, f, c, h => by
    have hm : PartSpec.fileP f c ∈ ps := by
      rcases List.mem_cons.mp h with he | hm
      · exact absurd he (by simp)
      · exact hm
    obtain ⟨k, h1, h2⟩ := mem_fileEntries gen ps k0 f c hm
    exact ⟨k, by simp [fileEntries, h1], by simp [writeEntries, h2]⟩
  | .fileP f' c' :: ps, k0, f, c, h => by
    rcases List.mem_cons.mp h with he | hm
    · injection he with hf hc
      subst hf
      subst hc
      exact ⟨k0, by simp [fileEntries], by simp [writeEntries]⟩
    · obtain ⟨k, h1, h2⟩ := mem_fileEntries gen ps (k0 + 1) f c hm
      exact ⟨k, by simp [fileEntries, h1], by simp [writeEntries, h2]⟩

theorem lookupA_foldl_fields (gen : Nat → Chars) :
    ∀ (parts : List PartSpec) (st : DecState) (n : Chars),
      lookupA n (parts.foldl (applyPart gen) st).fields
        = parts.foldl (lastFieldStep n) (lookupA n st.fields)
  | [], _, _ => rfl
  | .fieldP m v :: ps, st, n => by
    simp only [List.foldl_cons, applyPart, lastFieldStep]
    rw [lookupA_foldl_fields gen ps _ n, lookupA_upsert]
  | .fileP f c :: ps, st, n => by
    simp only [List.foldl_cons, applyPart, lastFieldStep]
    exact lookupA_foldl_fields gen ps _ n

theorem lookupA_foldl_files (gen : Nat → Chars) :
    ∀ (parts : List PartSpec) (st : DecState) (f : Chars),
      lookupA f (parts.foldl (applyPart gen) st).files
        = (parts.foldl (lastFileStep gen f) (st.fileCount, lookupA f st.files)).2
  | [], _, _ => rfl
  | .fieldP n v :: ps, st, f => by
    simp only [List.foldl_cons, applyPart, lastFileStep]
    exact lookupA_foldl_files gen ps _ f
  | .fileP f' c :: ps, st, f => by
    simp only [List.foldl_cons, applyPart, lastFileStep]
    rw [lookupA_foldl_files gen ps _ f, lookupA_upsert]

theorem toBytes_of_byteChars {s : Chars} (h : byteChars s = true) :
    toBytes s = s.map Char.toNat := by
  induction s with
  | nil => rfl
  | cons c cs ih =>
    simp only [byteChars, List.all_cons, Bool.and_eq_true, decide_eq_true_eq] at h
    have hih := ih h.2
    simp only [toBytes, List.map_cons] at hih ⊢
    rw [Nat.mod_eq_of_lt h.1]
    exact congrArg (c.toNat :: ·) hih

/-! ### Concrete instances used by witnesses -/

def gen0 : Nat → Chars := fun _ => []

def woT : Chars → List Nat → Bool := fun _ _ => true

def partsW : List PartSpec :=
  [PartSpec.fieldP (strL "title") (strL "Algoritmi EKG"),
   PartSpec.fileP (strL "doc.pdf") (strL "PDF\r\n\r\ndata")]

/-! ### The claims -/

/-- C1: for every well-formed multipart body containing N field parts and M
file parts with no two parts sharing a name, decode succeeds with exactly N
field entries and M file entries, every field value equals the part's
content, and every file payload is persisted byte-for-byte (its record
carries the original filename and exact byte size). -/
theorem C1_decode_wellformed (gen : Nat → Chars) (B : Chars) (parts : List PartSpec)
    (hB : wfBoundary B = true)
    (hp : ∀ p ∈ parts, wfPart ('-' :: '-' :: B) p = true)
    (hnf : (fieldNames parts).Nodup) (hnl : (fileNames parts).Nodup) :
    ∃ st, decode gen (fun _ _ => true)
        (encodeBody ('-' :: '-' :: B) (parts.map segOf)) (ctOf B) = .ok st
      ∧ st.fields.length = parts.countP isFieldB
      ∧ st.files.length = parts.countP isFileB
      ∧ (∀ n v, PartSpec.fieldP n v ∈ parts → lookupA n st.fields = some v)
      ∧ (∀ f c, PartSpec.fileP f c ∈ parts →
          ∃ r, lookupA f st.files = some r ∧ r.originalFilename = f
            ∧ r.size = c.length ∧ (r.filename, c.map Char.toNat) ∈ st.writes) := by
  have hdec := decode_encodeBody gen (fun _ _ => true) parts hB hp
  rw [runSpecE_true gen parts initState] at hdec
  have hfe : (parts.foldl (applyPart gen) initState).fields = fieldEntries parts := by
    have h0 := foldl_applyPart_fields gen parts initState (by simpa [initState] using hnf)
    simpa [initState] using h0
  have hfl : (parts.foldl (applyPart gen) initState).files = fileEntries gen 0 parts := by
    have h0 := foldl_applyPart_files gen parts initState (by simpa [initState] using hnl)
    simpa [initState] using h0
  have hwr : (parts.foldl (applyPart gen) initState).writes = writeEntries gen 0 parts := by
    have h0 := foldl_applyPart_writes gen parts initState
    simpa [initState] using h0
  refine ⟨parts.foldl (applyPart gen) initState, hdec, ?_, ?_, ?_, ?_⟩
  · rw [hfe, length_fieldEntries]
  · rw [hfl, length_fileEntries]
  · intro n v hm
    rw [hfe]
    exact lookupA_entries (by rw [map_fst_fieldEntries]; exact hnf) (mem_fieldEntries hm)
  · intro f c hm
    obtain ⟨k, h1, h2⟩ := mem_fileEntries gen parts 0 f c hm
    have hb : byteChars c = true := by
      have hw := hp _ hm
      simp only [wfPart, Bool.and_eq_true] at hw
      exact hw.2.2
    refine ⟨⟨gen k ++ extname f, f, (toBytes c).length⟩, ?_, rfl, ?_, ?_⟩
    · rw [hfl]
      exact lookupA_entries (by rw [map_fst_fileEntries]; exact hnl) h1
    · simp [toBytes]
    · rw [hwr, ← toBytes_of_byteChars hb]
      exact h2

/-- C1 witness: a concrete two-part body (one field, one file whose payload
contains a blank-line sequence) decodes as required. -/
theorem C1_witness :
    ∃ st, decode (fun _ => strL "aa") (fun _ _ => true)
        (encodeBody ('-' :: '-' :: strL "XYZ") (partsW.map segOf)) (ctOf (strL "XYZ"))
        = .ok st
      ∧ st.fields.length = partsW.countP isFieldB
      ∧ st.files.length = partsW.countP isFileB
      ∧ (∀ n v, PartSpec.fieldP n v ∈ partsW → lookupA n st.fields = some v)
      ∧ (∀ f c, PartSpec.fileP f c ∈ partsW →
          ∃ r, lookupA f st.files = some r ∧ r.originalFilename = f
            ∧ r.size = c.length ∧ (r.filename, c.map Char.toNat) ∈ st.writes) :=
  C1_decode_wellformed (fun _ => strL "aa") (strL "XYZ") partsW
    (by decide) (by decide) (by decide) (by decide)

/-- C2: splitting on the delimiter yields a leading empty segment, the
serialised parts, and the closing segment; the empty segment and the
closing segment are skipped without touching the state, no well-formed part
is skipped, whitespace-only parts are skipped, and the skip condition is
exactly "trims to empty or contains the close marker". -/
theorem C2_skip_exactly (gen : Nat → Chars) (wo : Chars → List Nat → Bool)
    (B : Chars) (parts : List PartSpec)
    (hB : wfBoundary B = true)
    (hp : ∀ p ∈ parts, wfPart ('-' :: '-' :: B) p = true) :
    jsSplit (strL "--" ++ B) (encodeBody ('-' :: '-' :: B) (parts.map segOf))
        = [] :: (parts.map segOf ++ [strL "--\r\n"])
      ∧ (∀ st, processPart gen wo st [] = .ok st)
      ∧ (∀ st, processPart gen wo st (strL "--\r\n") = .ok st)
      ∧ (∀ p ∈ parts, skipPart (segOf p) = false)
      ∧ (∀ s : Chars, skipPart s = true ↔
          (jsTrim s = [] ∨ hasSubB (strL "--\r\n") s = true)) := by
  refine ⟨?_, processPart_empty gen wo, processPart_closer gen wo, ?_, ?_⟩
  · apply jsSplit_encodeBody hB
    intro s hs
    obtain ⟨p, hpm, rfl⟩ := List.mem_map.mp hs
    have hw := hp p hpm
    simp only [wfPart, Bool.and_eq_true] at hw
    exact hw.1.1.1
  · intro p hpm
    have hw := hp p hpm
    simp only [wfPart, Bool.and_eq_true, Bool.not_eq_true'] at hw
    exact skipPart_seg hw.1.1.2
  · intro s
    unfold skipPart
    constructor
    · intro h
      by_cases h1 : (jsTrim s).isEmpty = true
      · exact Or.inl (List.isEmpty_iff.mp h1)
      · right
        simp only [Bool.not_eq_true] at h1
        simpa [h1] using h
    · intro h
      rcases h with h1 | h2
      · simp [h1]
      · simp [h2]

/-- C2 witness: the concrete two-part body splits and skips as stated. -/
theorem C2_witness :
    jsSplit (strL "--" ++ strL "XYZ")
        (encodeBody ('-' :: '-' :: strL "XYZ") (partsW.map segOf))
        = [] :: (partsW.map segOf ++ [strL "--\r\n"])
      ∧ (∀ st, processPart gen0 woT st [] = .ok st)
      ∧ (∀ st, processPart gen0 woT st (strL "--\r\n") = .ok st)
      ∧ (∀ p ∈ partsW, skipPart (segOf p) = false)
      ∧ (∀ s : Chars, skipPart s = true ↔
          (jsTrim s = [] ∨ hasSubB (strL "--\r\n") s = true)) :=
  C2_skip_exactly gen0 woT (strL "XYZ") partsW (by decide) (by decide)

/-- C3 counterexample: a processed field part whose body block `a\r\nb`
does not end with `\r\n` is NOT left unchanged: the decoder truncates it at
the last interior `\r\n`, yielding `a`. -/
theorem C3_counterexample :
    decode gen0 woT
        (strL "--XYZ\r\nContent-Disposition: form-data; name=\"x\"\r\n\r\na\r\nb--XYZ--\r\n")
        (strL "multipart/form-data; boundary=XYZ")
      = .ok ⟨[(strL "x", strL "a")], [], [], 0⟩
      ∧ (headerBody (strL "\r\nContent-Disposition: form-data; name=\"x\"\r\n\r\na\r\nb")).2
        = strL "a\r\nb"
      ∧ stripTrailing (strL "a\r\nb") = strL "a"
      ∧ strL "a" ≠ strL "a\r\nb" :=
  ⟨rfl, rfl, rfl, by decide⟩

/-- C3 (amended): the decoded value or payload is the body block truncated
at the LAST occurrence of `\r\n`: when the block ends with `\r\n` exactly
that one trailing terminator is stripped (first conjunct with `b = []`),
when the last occurrence is interior everything after it is dropped too,
and a block with no `\r\n` at all decodes to empty. -/
theorem C3_strip_amended :
    (∀ v b : Chars, hasSubB (strL "\r\n") b = false →
        stripTrailing (v ++ strL "\r\n" ++ b) = v)
      ∧ (∀ s : Chars, hasSubB (strL "\r\n") s = false → stripTrailing s = []) :=
  ⟨fun v _ hb => stripTrailing_append v hb, fun _ h => stripTrailing_of_no_crlf h⟩

/-- C3 witness: stripping a terminated block keeps every interior `\r\n`;
a block with none decodes to empty. -/
theorem C3_witness :
    stripTrailing (strL "a\r\nb" ++ strL "\r\n" ++ []) = strL "a\r\nb"
      ∧ stripTrailing (strL "xy") = [] :=
  ⟨C3_strip_amended.1 (strL "a\r\nb") [] (by decide),
   C3_strip_amended.2 (strL "xy") (by decide)⟩

/-- C4: the header/body split of a part is made at the FIRST occurrence of
the blank-line separator only; everything after it, including further
occurrences of the separator inside binary data, is returned intact as the
body block. -/
theorem C4_headerBody_first (h b : Chars)
    (hh : noEarlyHit (strL "\r\n\r\n") h = true) :
    headerBody (h ++ strL "\r\n\r\n" ++ b) = (h, b) := by
  have hsep : strL "\r\n\r\n" = '\r' :: strL "\n\r\n" := rfl
  unfold headerBody
  rw [show jsSplit (strL "\r\n\r\n") (h ++ strL "\r\n\r\n" ++ b)
      = splitGo '\r' (strL "\n\r\n") (h ++ strL "\r\n\r\n" ++ b) from rfl]
  rw [show h ++ strL "\r\n\r\n" ++ b = h ++ ('\r' :: strL "\n\r\n") ++ b from rfl]
  rw [splitGo_append '\r' (strL "\n\r\n") h b (hsep ▸ hh)]
  show (h, joinWith (strL "\r\n\r\n") (splitGo '\r' (strL "\n\r\n") b)) = (h, b)
  rw [hsep, joinWith_splitGo]

/-- C4 witness: a body block containing the separator survives intact. -/
theorem C4_witness :
    headerBody (strL "\r\nContent-Disposition: form-data; name=\"f\""
        ++ strL "\r\n\r\n" ++ strL "x\r\n\r\ny")
      = (strL "\r\nContent-Disposition: form-data; name=\"f\"", strL "x\r\n\r\ny") :=
  C4_headerBody_first (strL "\r\nContent-Disposition: form-data; name=\"f\"")
    (strL "x\r\n\r\ny") (by decide)

/-- C5: when no boundary parameter can be extracted from the Content-Type
(in particular whenever it does not even contain `boundary=`), decode fails
with the missing-boundary error before any body parsing, producing no
mappings. -/
theorem C5_missing_boundary (gen : Nat → Chars) (wo : Chars → List Nat → Bool)
    (data ct : Chars) :
    (hasSubB (strL "boundary=") ct = false → extractBoundary ct = none)
      ∧ (extractBoundary ct = none →
          decode gen wo data ct = .error .missingBoundary) := by
  constructor
  · intro h
    exact scanFor_none _ _ _ h
  · intro h
    unfold decode
    rw [h]

/-- C5 witness: a bare `multipart/form-data` Content-Type fails with the
missing-boundary error. -/
theorem C5_witness :
    decode gen0 woT [] (strL "multipart/form-data") = .error .missingBoundary :=
  (C5_missing_boundary gen0 woT [] (strL "multipart/form-data")).2
    ((C5_missing_boundary gen0 woT [] (strL "multipart/form-data")).1 (by decide))

/-- C6: when parts share a key, the later one wins: the decoded fields map
sends each name to the value of the LAST field part with that name, and the
files map sends each filename to the record of the LAST file part with that
filename. -/
theorem C6_last_write_wins (gen : Nat → Chars) (B : Chars) (parts : List PartSpec)
    (hB : wfBoundary B = true)
    (hp : ∀ p ∈ parts, wfPart ('-' :: '-' :: B) p = true) :
    ∃ st, decode gen (fun _ _ => true)
        (encodeBody ('-' :: '-' :: B) (parts.map segOf)) (ctOf B) = .ok st
      ∧ (∀ n, lookupA n st.fields = parts.foldl (lastFieldStep n) none)
      ∧ (∀ f, lookupA f st.files = (parts.foldl (lastFileStep gen f) (0, none)).2) := by
  have hdec := decode_encodeBody gen (fun _ _ => true) parts hB hp
  rw [runSpecE_true gen parts initState] at hdec
  refine ⟨parts.foldl (applyPart gen) initState, hdec, ?_, ?_⟩
  · intro n
    have h0 := lookupA_foldl_fields gen parts initState n
    simpa [initState, lookupA] using h0
  · intro f
    have h0 := lookupA_foldl_files gen parts initState f
    simpa [initState, lookupA] using h0

/-- C6 witness: two field parts both named `x` with values `a` then `b`
decode to `fields x = b`. -/
theorem C6_witness :
    ∃ st, decode gen0 (fun _ _ => true)
        (encodeBody ('-' :: '-' :: strL "XYZ")
          ([PartSpec.fieldP (strL "x") (strL "a"),
            PartSpec.fieldP (strL "x") (strL "b")].map segOf)) (ctOf (strL "XYZ"))
        = .ok st
      ∧ lookupA (strL "x") st.fields = some (strL "b") := by
  obtain ⟨st, hdec, hf, _⟩ := C6_last_write_wins gen0 (strL "XYZ")
    [PartSpec.fieldP (strL "x") (strL "a"), PartSpec.fieldP (strL "x") (strL "b")]
    (by decide) (by decide)
  refine ⟨st, hdec, ?_⟩
  rw [hf (strL "x")]
  decide

/-- C7: a success of decode always carries the complete result of
processing every part (never a partial mapping), and when persisting a file
payload fails, the whole decode aborts with the processing error. -/
theorem C7_all_or_nothing (gen : Nat → Chars) (B : Chars) (parts : List PartSpec)
    (hB : wfBoundary B = true)
    (hp : ∀ p ∈ parts, wfPart ('-' :: '-' :: B) p = true) :
    (∀ (wo : Chars → List Nat → Bool) (st : DecState),
        decode gen wo (encodeBody ('-' :: '-' :: B) (parts.map segOf)) (ctOf B)
          = .ok st →
        st = parts.foldl (applyPart gen) initState)
      ∧ ((∃ f c, PartSpec.fileP f c ∈ parts) →
          decode gen (fun _ _ => false)
              (encodeBody ('-' :: '-' :: B) (parts.map segOf)) (ctOf B)
            = .error .processing) := by
  constructor
  · intro wo st h
    have hdec := decode_encodeBody gen wo parts hB hp
    rw [hdec] at h
    cases hr : runSpecE gen wo initState parts with
    | ok st' =>
      rw [hr] at h
      have h2 : st' = st := by simpa using h
      subst h2
      exact runSpecE_ok gen wo parts initState st' hr
    | error e =>
      rw [hr] at h
      simp at h
  · intro hex
    have hdec := decode_encodeBody gen (fun _ _ => false) parts hB hp
    rw [runSpecE_false_of_file gen parts initState hex] at hdec
    exact hdec

/-- C7 witness: an always-failing store aborts the decode of a body with a
file part. -/
theorem C7_witness :
    decode gen0 (fun _ _ => false)
        (encodeBody ('-' :: '-' :: strL "XYZ")
          ([PartSpec.fileP (strL "f.t") (strL "z")].map segOf)) (ctOf (strL "XYZ"))
      = .error .processing :=
  (C7_all_or_nothing gen0 (strL "XYZ") [PartSpec.fileP (strL "f.t") (strL "z")]
      (by decide) (by decide)).2 ⟨strL "f.t", strL "z", by decide⟩

/-- C8: a part whose header block contains neither a `filename` attribute
nor a quoted `name` attribute is silently skipped — it leaves the state
untouched and the remaining parts are processed as if it were absent. -/
theorem C8_neither_attr (gen : Nat → Chars) (wo : Chars → List Nat → Bool)
    (st : DecState) (part : Chars) (rest : List Chars)
    (hnf : hasSubB (strL "filename=") (headerBody part).1 = false)
    (hnn : matchQuoted (strL "name=\"") (headerBody part).1 = none) :
    processPart gen wo st part = .ok st
      ∧ runParts gen wo st (part :: rest) = runParts gen wo st rest := by
  have hpp : processPart gen wo st part = .ok st := by
    unfold processPart
    by_cases hs : skipPart part = true
    · simp [hs]
    · simp only [Bool.not_eq_true] at hs
      simp [hs, hnf, hnn]
  exact ⟨hpp, by simp [runParts, hpp]⟩

/-- C8 witness: a part with only a Content-Type header contributes nothing
and does not disturb the rest of the loop. -/
theorem C8_witness :
    processPart gen0 woT initState
        (strL "\r\nContent-Type: text/plain\r\n\r\nhello\r\n") = .ok initState
      ∧ runParts gen0 woT initState
          [strL "\r\nContent-Type: text/plain\r\n\r\nhello\r\n", strL "p2"]
        = runParts gen0 woT initState [strL "p2"] :=
  C8_neither_attr gen0 woT initState
    (strL "\r\nContent-Type: text/plain\r\n\r\nhello\r\n") [strL "p2"]
    (by decide) (by decide)

/-- C9: a part whose header contains the substring `filename=` but no
quoted `filename="..."` attribute produces no entry at all: the file branch
is taken, its match fails, and the field branch is never tried — even when
the same header carries a perfectly valid `name="..."` attribute. -/
theorem C9_unquoted_filename (gen : Nat → Chars) (wo : Chars → List Nat → Bool)
    (st : DecState) (part : Chars) (rest : List Chars)
    (hf : hasSubB (strL "filename=") (headerBody part).1 = true)
    (hm : matchQuoted (strL "filename=\"") (headerBody part).1 = none) :
    processPart gen wo st part = .ok st
      ∧ runParts gen wo st (part :: rest) = runParts gen wo st rest := by
  have hpp : processPart gen wo st part = .ok st := by
    unfold processPart
    by_cases hs : skipPart part = true
    · simp [hs]
    · simp only [Bool.not_eq_true] at hs
      simp [hs, hf, hm]
  exact ⟨hpp, by simp [runParts, hpp]⟩

/-- C9 witness: an unquoted filename with a valid quoted name in the same
header still yields nothing. -/
theorem C9_witness :
    processPart gen0 woT initState
        (strL "\r\nContent-Disposition: form-data; name=\"x\"; filename=unq.txt\r\n\r\nv\r\n")
      = .ok initState
      ∧ runParts gen0 woT initState
          [strL "\r\nContent-Disposition: form-data; name=\"x\"; filename=unq.txt\r\n\r\nv\r\n"]
        = runParts gen0 woT initState [] :=
  C9_unquoted_filename gen0 woT initState
    (strL "\r\nContent-Disposition: form-data; name=\"x\"; filename=unq.txt\r\n\r\nv\r\n")
    [] (by decide) (by decide)

/-- C10: a processed part whose body block contains no `\r\n` at all
decodes to an empty result regardless of the block's content: the strip
yields the empty string, so a field gets value `""` and a file is persisted
as zero bytes and recorded with size 0 (shown on concrete bodies). -/
theorem C10_no_crlf_empty :
    (∀ s : Chars, hasSubB (strL "\r\n") s = false → stripTrailing s = [])
      ∧ decode gen0 woT
          (strL "--B\r\nContent-Disposition: form-data; name=\"x\"\r\n\r\nhello--B--\r\n")
          (strL "multipart/form-data; boundary=B")
          = .ok ⟨[(strL "x", [])], [], [], 0⟩
      ∧ decode gen0 woT
          (strL "--B\r\nContent-Disposition: form-data; name=\"file\"; filename=\"f.t\"\r\n\r\nhello--B--\r\n")
          (strL "multipart/form-data; boundary=B")
          = .ok ⟨[], [(strL "f.t", ⟨strL ".t", strL "f.t", 0⟩)], [(strL ".t", [])], 1⟩ :=
  ⟨fun _ h => stripTrailing_of_no_crlf h, rfl, rfl⟩

/-- C10 witness: a body block with no terminator strips to empty. -/
theorem C10_witness : stripTrailing (strL "hello") = [] :=
  C10_no_crlf_empty.1 (strL "hello") (by decide)
